import Mathlib

/-!
Verification of the Izhikevich 2003 neuron plugin (src/src/lib.rs).

The Rust code works on `f64`. We embed its arithmetic as exact rational
arithmetic (`ℚ`); decimal literals such as `0.04` denote the exact decimal
fraction. The only places where non-finite floating-point values matter are
the API boundaries (`set_input_value`'s finiteness guard, `process_tick`'s
elapsed-time guard, and the JSON configuration values), so f64 values crossing
those boundaries are modelled by `F64`, a rational together with the three
non-finite shapes.
-/

/-- An `f64` as it crosses the plugin API boundary: either a finite value
(modelled exactly as a rational) or one of the non-finite shapes. -/
inductive F64 where
  | finite : ℚ → F64
  | nan : F64
  | posInf : F64
  | negInf : F64
deriving DecidableEq

/-- Rust's `f64::is_finite`. -/
def F64.is_finite : F64 → Bool
  | .finite _ => true
  | _ => false

/-- The rational value of a finite f64. Non-finite values are mapped to 0;
this branch is never exercised by reachable states: the only `F64` stored in
the neuron state is `i_syn`, and `set_input_value` guards it with
`is_finite` (see the invariant proved for the input operation). -/
def F64.toRat : F64 → ℚ
  | .finite q => q
  | _ => 0

/-- A `serde_json::Value` as seen through `Value::as_f64`: either a number
(JSON numbers are always finite) or a non-numeric value. -/
inductive JsonValue where
  | number : ℚ → JsonValue
  | nonNumber : JsonValue
deriving DecidableEq

/-- `serde_json::Value::as_f64`: the numeric payload, when there is one. -/
def JsonValue.as_f64 : JsonValue → Option ℚ
  | .number q => some q
  | .nonNumber => none

/-- The boundary conversion of an f64 into a JSON value. serde_json cannot
represent non-finite numbers (`Number::from_f64` returns `None` for NaN and
the infinities, and such a value serializes as null), so a non-finite f64
reaches `set_config_value` only as a non-numeric value. -/
def JsonValue.from_f64 : F64 → JsonValue
  | .finite q => .number q
  | _ => .nonNumber

/-- The plugin state `Izhikevich2003Neuron` from src/src/lib.rs. All fields
are `f64` in Rust; `i_syn` is kept as an `F64` because it is the one field
written directly from an unguarded external f64, the rest are modelled by
their exact rational values. -/
structure Izhikevich2003Neuron where
  i_syn : F64
  v : ℚ
  u : ℚ
  a : ℚ
  b : ℚ
  c : ℚ
  d : ℚ
  v_mv : ℚ
deriving DecidableEq

/-- `Default::default()` for the neuron state. -/
def Izhikevich2003Neuron.default : Izhikevich2003Neuron :=
  { i_syn := .finite 0.0
    v := -65.0
    u := -13.0
    a := 0.02
    b := 0.2
    c := -65.0
    d := 8.0
    v_mv := -65.0 }

/-- `set_config_value`: `if let Some(v) = value.as_f64()` followed by a match
on the key (the Rust string match is rendered as a chain of string-equality
tests). -/
def set_config_value (s : Izhikevich2003Neuron) (key : String) (value : JsonValue) :
    Izhikevich2003Neuron :=
  match value.as_f64 with
  | some v =>
    if key = "v" then { s with v := v }
    else if key = "u" then { s with u := v }
    else if key = "a" then { s with a := v }
    else if key = "b" then { s with b := v }
    else if key = "c" then { s with c := v }
    else if key = "d" then { s with d := v }
    else s
  | none => s

/-- `set_input_value`: on key `"i_syn"` store the value if finite, else 0.0;
other keys are ignored. -/
def set_input_value (s : Izhikevich2003Neuron) (key : String) (v : F64) :
    Izhikevich2003Neuron :=
  if key = "i_syn" then { s with i_syn := if v.is_finite then v else .finite 0.0 }
  else s

/-- `const MAX_STEP_MS: f64 = 0.5`. -/
def MAX_STEP_MS : ℚ := 0.5

/-- The derivative `dv` of one sub-step, computed from the pre-step state:
`0.04 * v0 * v0 + 5.0 * v0 + 140.0 - u0 + self.i_syn`. -/
def Izhikevich2003Neuron.dv (s : Izhikevich2003Neuron) : ℚ :=
  0.04 * s.v * s.v + 5.0 * s.v + 140.0 - s.u + s.i_syn.toRat

/-- The derivative `du` of one sub-step, computed from the pre-step state:
`self.a * (self.b * v0 - u0)`. -/
def Izhikevich2003Neuron.du (s : Izhikevich2003Neuron) : ℚ :=
  s.a * (s.b * s.v - s.u)

/-- One iteration of the `while remaining_ms > 0.0` loop body after `dt_ms`
has been fixed: the Euler update `v0 + dt_ms * dv`, `u0 + dt_ms * du`
followed by the threshold test `if self.v >= 30.0` and the reset
`v = c; u += d`. -/
def substep (s : Izhikevich2003Neuron) (dt_ms : ℚ) : Izhikevich2003Neuron :=
  let v1 := s.v + dt_ms * s.dv
  let u1 := s.u + dt_ms * s.du
  if 30.0 ≤ v1 then { s with v := s.c, u := u1 + s.d }
  else { s with v := v1, u := u1 }

/-- The number of iterations the sub-step loop performs on a remaining
budget of `remaining_ms` milliseconds: each iteration consumes
`min remaining_ms 0.5`, so the count is `⌈2 * remaining_ms⌉` (0 when the
budget is not positive). Used as fuel for the loop. -/
def nSubsteps (remaining_ms : ℚ) : ℕ :=
  (⌈2 * remaining_ms⌉).toNat

/-- The sub-step loop of `process_tick`, with explicit fuel:
`while remaining_ms > 0.0 { let dt_ms = remaining_ms.min(MAX_STEP_MS);
remaining_ms -= dt_ms; <substep> }`. -/
def integrate_loop_fuel : ℕ → Izhikevich2003Neuron → ℚ → Izhikevich2003Neuron
  | 0, s, _ => s
  | n + 1, s, remaining_ms =>
    if 0 < remaining_ms then
      let dt_ms := min remaining_ms MAX_STEP_MS
      integrate_loop_fuel n (substep s dt_ms) (remaining_ms - dt_ms)
    else s

/-- The sub-step loop, run with exactly enough fuel. The lemma
`integrate_loop_eq` below shows this function satisfies the defining
equation of the Rust `while` loop, so the fuel is sufficient. -/
def integrate_loop (s : Izhikevich2003Neuron) (remaining_ms : ℚ) : Izhikevich2003Neuron :=
  integrate_loop_fuel (nSubsteps remaining_ms) s remaining_ms

/-- `process_tick`: return unchanged unless `period_seconds` is finite and
positive; otherwise convert to milliseconds, run the sub-step loop, and
refresh `v_mv` from the final `v`. The `u64` tick counter is unused, exactly
as in the source (`_tick`). -/
def process_tick (s : Izhikevich2003Neuron) (_tick : ℕ) (period_seconds : F64) :
    Izhikevich2003Neuron :=
  if period_seconds.is_finite = true ∧ 0 < period_seconds.toRat then
    let sf := integrate_loop s (period_seconds.toRat * 1000.0)
    { sf with v_mv := sf.v }
  else s

/-- The iteration count of the sub-step loop, following the same recursion
as `integrate_loop_fuel`. -/
def loop_steps_fuel : ℕ → ℚ → ℕ
  | 0, _ => 0
  | n + 1, remaining_ms =>
    if 0 < remaining_ms then
      loop_steps_fuel n (remaining_ms - min remaining_ms MAX_STEP_MS) + 1
    else 0

/-- The number of sub-step iterations a tick of `period_seconds` performs. -/
def tick_substeps (period_seconds : ℚ) : ℕ :=
  loop_steps_fuel (nSubsteps (period_seconds * 1000.0)) (period_seconds * 1000.0)

/-- Spike-freedom of the sub-step loop: at every iteration the raw Euler
candidate `v0 + dt_ms * dv` stays below the 30.0 threshold. -/
def spike_free_fuel : ℕ → Izhikevich2003Neuron → ℚ → Bool
  | 0, _, _ => true
  | n + 1, s, remaining_ms =>
    if 0 < remaining_ms then
      let dt_ms := min remaining_ms MAX_STEP_MS
      decide (s.v + dt_ms * s.dv < 30.0) &&
        spike_free_fuel n (substep s dt_ms) (remaining_ms - dt_ms)
    else true

/-- No sub-step of a tick of `period_seconds` from state `s` reaches the
spike threshold. -/
def tick_spike_free (s : Izhikevich2003Neuron) (period_seconds : ℚ) : Bool :=
  spike_free_fuel (nSubsteps (period_seconds * 1000.0)) s (period_seconds * 1000.0)

/-- One host-driven mutating operation on the plugin state. -/
inductive HostOp where
  | config : String → JsonValue → HostOp
  | input : String → F64 → HostOp
  | tick : ℕ → F64 → HostOp

/-- Apply one host operation. -/
def apply_op (s : Izhikevich2003Neuron) : HostOp → Izhikevich2003Neuron
  | .config k val => set_config_value s k val
  | .input k x => set_input_value s k x
  | .tick t e => process_tick s t e

/-- Apply a sequence of host operations in order. -/
def apply_ops (s : Izhikevich2003Neuron) (ops : List HostOp) : Izhikevich2003Neuron :=
  ops.foldl apply_op s

/-- The observable trajectory of a run: for each `(i_syn, elapsed)` pair,
set the input, process the tick (with a running tick counter), and record
`(v, u, v_mv)`. -/
def trajectory : Izhikevich2003Neuron → ℕ → List (F64 × F64) → List (ℚ × ℚ × ℚ)
  | _, _, [] => []
  | s, t, (i, e) :: rest =>
    let s' := process_tick (set_input_value s "i_syn" i) t e
    (s'.v, s'.u, s'.v_mv) :: trajectory s' (t + 1) rest

/-! ### Record-update projection lemmas -/

@[simp] theorem set_vmv_i_syn (s : Izhikevich2003Neuron) (x : ℚ) :
    ({ s with v_mv := x } : Izhikevich2003Neuron).i_syn = s.i_syn := rfl

@[simp] theorem set_vmv_v (s : Izhikevich2003Neuron) (x : ℚ) :
    ({ s with v_mv := x } : Izhikevich2003Neuron).v = s.v := rfl

@[simp] theorem set_vmv_u (s : Izhikevich2003Neuron) (x : ℚ) :
    ({ s with v_mv := x } : Izhikevich2003Neuron).u = s.u := rfl

@[simp] theorem set_vmv_a (s : Izhikevich2003Neuron) (x : ℚ) :
    ({ s with v_mv := x } : Izhikevich2003Neuron).a = s.a := rfl

@[simp] theorem set_vmv_b (s : Izhikevich2003Neuron) (x : ℚ) :
    ({ s with v_mv := x } : Izhikevich2003Neuron).b = s.b := rfl

@[simp] theorem set_vmv_c (s : Izhikevich2003Neuron) (x : ℚ) :
    ({ s with v_mv := x } : Izhikevich2003Neuron).c = s.c := rfl

@[simp] theorem set_vmv_d (s : Izhikevich2003Neuron) (x : ℚ) :
    ({ s with v_mv := x } : Izhikevich2003Neuron).d = s.d := rfl

@[simp] theorem set_vmv_dv (s : Izhikevich2003Neuron) (x : ℚ) :
    ({ s with v_mv := x } : Izhikevich2003Neuron).dv = s.dv := rfl

@[simp] theorem set_vmv_du (s : Izhikevich2003Neuron) (x : ℚ) :
    ({ s with v_mv := x } : Izhikevich2003Neuron).du = s.du := rfl

/-! ### Frame lemmas for the sub-step -/

@[simp] theorem substep_i_syn (s : Izhikevich2003Neuron) (dt : ℚ) :
    (substep s dt).i_syn = s.i_syn := by
  simp only [substep]; split <;> rfl

@[simp] theorem substep_a (s : Izhikevich2003Neuron) (dt : ℚ) :
    (substep s dt).a = s.a := by
  simp only [substep]; split <;> rfl

@[simp] theorem substep_b (s : Izhikevich2003Neuron) (dt : ℚ) :
    (substep s dt).b = s.b := by
  simp only [substep]; split <;> rfl

@[simp] theorem substep_c (s : Izhikevich2003Neuron) (dt : ℚ) :
    (substep s dt).c = s.c := by
  simp only [substep]; split <;> rfl

@[simp] theorem substep_d (s : Izhikevich2003Neuron) (dt : ℚ) :
    (substep s dt).d = s.d := by
  simp only [substep]; split <;> rfl

@[simp] theorem substep_v_mv (s : Izhikevich2003Neuron) (dt : ℚ) :
    (substep s dt).v_mv = s.v_mv := by
  simp only [substep]; split <;> rfl

/-! ### Fuel accounting: the loop consumes exactly `nSubsteps` iterations -/

theorem nSubsteps_nonpos {r : ℚ} (h : r ≤ 0) : nSubsteps r = 0 := by
  unfold nSubsteps
  have h2 : ⌈2 * r⌉ ≤ (0 : ℤ) := Int.ceil_le.mpr (by push_cast; linarith)
  omega

theorem nSubsteps_pos {r : ℚ} (h : 0 < r) : 0 < nSubsteps r := by
  unfold nSubsteps
  have h2 : 1 ≤ ⌈2 * r⌉ := Int.one_le_ceil_iff.mpr (by linarith)
  omega

theorem nSubsteps_eq_of {r : ℚ} (k : ℕ) (h1 : (k : ℚ) - 1 < 2 * r) (h2 : 2 * r ≤ (k : ℚ)) :
    nSubsteps r = k := by
  unfold nSubsteps
  have h3 : ⌈2 * r⌉ = (k : ℤ) := by
    rw [Int.ceil_eq_iff]
    constructor <;> push_cast <;> linarith
  rw [h3, Int.toNat_natCast]

theorem nSubsteps_step {r : ℚ} (h : 0 < r) :
    nSubsteps (r - min r MAX_STEP_MS) = nSubsteps r - 1 := by
  have hhalf : MAX_STEP_MS = 1 / 2 := by norm_num [MAX_STEP_MS]
  rcases le_or_lt r MAX_STEP_MS with hle | hlt
  · rw [min_eq_left hle, sub_self, nSubsteps_nonpos le_rfl]
    have h1 : nSubsteps r = 1 := by
      apply nSubsteps_eq_of 1 <;> push_cast <;> rw [hhalf] at hle <;> linarith
    omega
  · rw [min_eq_right hlt.le]
    have key : ⌈2 * (r - MAX_STEP_MS)⌉ = ⌈2 * r⌉ - 1 := by
      have h4 : 2 * (r - MAX_STEP_MS) = 2 * r - 1 := by rw [hhalf]; ring
      rw [h4, Int.ceil_sub_one]
    have h2 : 2 ≤ ⌈2 * r⌉ := by
      have h5 : ((1 : ℤ) : ℚ) < 2 * r := by push_cast; rw [hhalf] at hlt; linarith
      have := Int.lt_ceil.mpr h5
      omega
    unfold nSubsteps
    rw [key]
    unfold nSubsteps at *
    omega

theorem integrate_loop_fuel_nonpos (n : ℕ) (s : Izhikevich2003Neuron) {r : ℚ} (h : r ≤ 0) :
    integrate_loop_fuel n s r = s := by
  cases n with
  | zero => rfl
  | succ n => simp only [integrate_loop_fuel, if_neg (not_lt.mpr h)]

theorem integrate_loop_fuel_congr (n : ℕ) : ∀ (s : Izhikevich2003Neuron) (r : ℚ),
    nSubsteps r ≤ n → integrate_loop_fuel n s r = integrate_loop s r := by
  induction n with
  | zero =>
    intro s r hn
    rw [integrate_loop, Nat.le_zero.mp hn]
  | succ n ih =>
    intro s r hn
    by_cases h : 0 < r
    · have hpos := nSubsteps_pos h
      have hstep := nSubsteps_step h
      obtain ⟨m, hm⟩ : ∃ m, nSubsteps r = m + 1 := ⟨nSubsteps r - 1, by omega⟩
      rw [integrate_loop, hm]
      simp only [integrate_loop_fuel, if_pos h]
      rw [ih _ _ (by omega), integrate_loop,
        show nSubsteps (r - min r MAX_STEP_MS) = m by omega]
    · have h' : r ≤ 0 := not_lt.mp h
      rw [integrate_loop_fuel_nonpos _ _ h', integrate_loop, integrate_loop_fuel_nonpos _ _ h']

theorem integrate_loop_nonpos (s : Izhikevich2003Neuron) {r : ℚ} (h : r ≤ 0) :
    integrate_loop s r = s := by
  rw [integrate_loop, integrate_loop_fuel_nonpos _ _ h]

/-- The defining equation of the Rust `while remaining_ms > 0.0` loop:
`integrate_loop` satisfies it, which certifies that the fuel
`nSubsteps remaining_ms` is enough to run the loop to completion. -/
theorem integrate_loop_eq (s : Izhikevich2003Neuron) (r : ℚ) :
    integrate_loop s r =
      if 0 < r then
        integrate_loop (substep s (min r MAX_STEP_MS)) (r - min r MAX_STEP_MS)
      else s := by
  by_cases h : 0 < r
  · rw [if_pos h, integrate_loop]
    obtain ⟨m, hm⟩ : ∃ m, nSubsteps r = m + 1 :=
      ⟨nSubsteps r - 1, by have := nSubsteps_pos h; omega⟩
    rw [hm]
    simp only [integrate_loop_fuel, if_pos h]
    exact integrate_loop_fuel_congr m _ _ (by have := nSubsteps_step h; omega)
  · rw [if_neg h, integrate_loop_nonpos _ (not_lt.mp h)]

theorem loop_steps_fuel_closed (n : ℕ) : ∀ r : ℚ,
    nSubsteps r ≤ n → loop_steps_fuel n r = nSubsteps r := by
  induction n with
  | zero =>
    intro r hn
    rw [loop_steps_fuel, Nat.le_zero.mp hn]
  | succ n ih =>
    intro r hn
    by_cases h : 0 < r
    · have hpos := nSubsteps_pos h
      have hstep := nSubsteps_step h
      simp only [loop_steps_fuel, if_pos h]
      rw [ih _ (by omega)]
      omega
    · simp only [loop_steps_fuel, if_neg h]
      rw [nSubsteps_nonpos (not_lt.mp h)]

theorem tick_substeps_closed (e : ℚ) : tick_substeps e = nSubsteps (e * 1000.0) :=
  loop_steps_fuel_closed _ _ le_rfl

/-! ### Frame lemmas for the loop and the tick -/

theorem integrate_loop_fuel_frame (n : ℕ) : ∀ (s : Izhikevich2003Neuron) (r : ℚ),
    (integrate_loop_fuel n s r).i_syn = s.i_syn ∧
    (integrate_loop_fuel n s r).a = s.a ∧
    (integrate_loop_fuel n s r).b = s.b ∧
    (integrate_loop_fuel n s r).c = s.c ∧
    (integrate_loop_fuel n s r).d = s.d ∧
    (integrate_loop_fuel n s r).v_mv = s.v_mv := by
  induction n with
  | zero =>
    intro s r
    exact ⟨rfl, rfl, rfl, rfl, rfl, rfl⟩
  | succ n ih =>
    intro s r
    simp only [integrate_loop_fuel]
    split
    · obtain ⟨h1, h2, h3, h4, h5, h6⟩ :=
        ih (substep s (min r MAX_STEP_MS)) (r - min r MAX_STEP_MS)
      simp [h1, h2, h3, h4, h5, h6]
    · exact ⟨rfl, rfl, rfl, rfl, rfl, rfl⟩

theorem process_tick_i_syn (s : Izhikevich2003Neuron) (t : ℕ) (e : F64) :
    (process_tick s t e).i_syn = s.i_syn := by
  unfold process_tick
  split
  · exact (integrate_loop_fuel_frame _ _ _).1
  · rfl

/-! ### The loop does not read `v_mv` -/

theorem substep_set_vmv (s : Izhikevich2003Neuron) (dt x : ℚ) :
    substep { s with v_mv := x } dt = { substep s dt with v_mv := x } := by
  simp only [substep, set_vmv_v, set_vmv_u, set_vmv_c, set_vmv_d, set_vmv_dv, set_vmv_du]
  split <;> rfl

theorem integrate_loop_fuel_set_vmv (n : ℕ) : ∀ (s : Izhikevich2003Neuron) (r x : ℚ),
    integrate_loop_fuel n { s with v_mv := x } r =
      { integrate_loop_fuel n s r with v_mv := x } := by
  induction n with
  | zero => intro s r x; rfl
  | succ n ih =>
    intro s r x
    simp only [integrate_loop_fuel]
    split
    · rw [substep_set_vmv, ih]
    · rfl

theorem integrate_loop_set_vmv (s : Izhikevich2003Neuron) (r x : ℚ) :
    integrate_loop { s with v_mv := x } r = { integrate_loop s r with v_mv := x } :=
  integrate_loop_fuel_set_vmv _ s r x

/-! ### Splitting the loop at aligned sub-step boundaries -/

theorem integrate_loop_append (k : ℕ) : ∀ (s : Izhikevich2003Neuron) (r : ℚ), 0 < r →
    integrate_loop s ((k : ℚ) / 2 + r) = integrate_loop (integrate_loop s ((k : ℚ) / 2)) r := by
  induction k with
  | zero =>
    intro s r hr
    rw [show ((0 : ℕ) : ℚ) / 2 + r = r by norm_num,
      show ((0 : ℕ) : ℚ) / 2 = 0 by norm_num, integrate_loop_nonpos s le_rfl]
  | succ k ih =>
    intro s r hr
    have hhalf : MAX_STEP_MS = 1 / 2 := by norm_num [MAX_STEP_MS]
    have hcast : ((k + 1 : ℕ) : ℚ) = (k : ℚ) + 1 := by push_cast; ring
    have hknn : (0 : ℚ) ≤ (k : ℚ) := Nat.cast_nonneg k
    have h1 : 0 < ((k + 1 : ℕ) : ℚ) / 2 + r := by rw [hcast]; linarith
    have hmin1 : min (((k + 1 : ℕ) : ℚ) / 2 + r) MAX_STEP_MS = MAX_STEP_MS := by
      apply min_eq_right
      rw [hhalf, hcast]; linarith
    have harg : ((k + 1 : ℕ) : ℚ) / 2 + r - MAX_STEP_MS = (k : ℚ) / 2 + r := by
      rw [hhalf, hcast]; ring
    rw [integrate_loop_eq s (((k + 1 : ℕ) : ℚ) / 2 + r), if_pos h1, hmin1, harg, ih _ _ hr]
    congr 1
    have h2 : 0 < ((k + 1 : ℕ) : ℚ) / 2 := by rw [hcast]; linarith
    have hmin2 : min (((k + 1 : ℕ) : ℚ) / 2) MAX_STEP_MS = MAX_STEP_MS := by
      apply min_eq_right
      rw [hhalf, hcast]; linarith
    rw [integrate_loop_eq s (((k + 1 : ℕ) : ℚ) / 2), if_pos h2, hmin2,
      show ((k + 1 : ℕ) : ℚ) / 2 - MAX_STEP_MS = (k : ℚ) / 2 by rw [hhalf, hcast]; ring]

/-! ### Configuration and input lemmas -/

theorem set_config_value_i_syn (s : Izhikevich2003Neuron) (k : String) (val : JsonValue) :
    (set_config_value s k val).i_syn = s.i_syn := by
  cases val with
  | nonNumber => rfl
  | number q =>
    simp only [set_config_value, JsonValue.as_f64]
    repeat' split
    all_goals rfl

theorem apply_op_i_syn_finite (s : Izhikevich2003Neuron) (op : HostOp)
    (h : s.i_syn.is_finite = true) : (apply_op s op).i_syn.is_finite = true := by
  cases op with
  | config k val =>
    simp only [apply_op]
    rw [set_config_value_i_syn]
    exact h
  | input k x =>
    simp only [apply_op]
    unfold set_input_value
    split
    · cases x <;> simp [F64.is_finite]
    · exact h
  | tick t e =>
    simp only [apply_op]
    rw [process_tick_i_syn]
    exact h

theorem apply_ops_i_syn_finite : ∀ (ops : List HostOp) (s : Izhikevich2003Neuron),
    s.i_syn.is_finite = true → (apply_ops s ops).i_syn.is_finite = true := by
  intro ops
  induction ops with
  | nil => intro s h; exact h
  | cons op rest ih =>
    intro s h
    exact ih _ (apply_op_i_syn_finite s op h)

/-! ### The committed membrane potential stays below threshold when c does -/

theorem substep_v_lt {s : Izhikevich2003Neuron} (dt : ℚ) (h : s.c < 30.0) :
    (substep s dt).v < 30.0 := by
  simp only [substep]
  split
  · simpa using h
  · rename_i hlt
    simpa using not_le.mp hlt

theorem integrate_loop_fuel_v_lt (n : ℕ) : ∀ (s : Izhikevich2003Neuron) (r : ℚ),
    0 < r → nSubsteps r ≤ n → s.c < 30.0 → (integrate_loop_fuel n s r).v < 30.0 := by
  induction n with
  | zero =>
    intro s r hr hn hc
    exact absurd (nSubsteps_pos hr) (by omega)
  | succ n ih =>
    intro s r hr hn hc
    simp only [integrate_loop_fuel, if_pos hr]
    have hc' : (substep s (min r MAX_STEP_MS)).c < 30.0 := by rw [substep_c]; exact hc
    by_cases h2 : 0 < r - min r MAX_STEP_MS
    · refine ih _ _ h2 ?_ hc'
      have := nSubsteps_step hr
      have := nSubsteps_pos hr
      omega
    · rw [integrate_loop_fuel_nonpos n _ (not_lt.mp h2)]
      exact substep_v_lt _ hc

/-! ### Evaluation helpers for ticks that fit in a single sub-step -/

theorem process_tick_single_step (s : Izhikevich2003Neuron) (t : ℕ) (e : ℚ)
    (h1 : 0 < e) (h2 : e * 1000.0 ≤ 1 / 2) :
    process_tick s t (.finite e) =
      { substep s (e * 1000.0) with v_mv := (substep s (e * 1000.0)).v } := by
  have hr : 0 < e * 1000.0 := by nlinarith
  have hn : nSubsteps (e * 1000.0) = 1 := nSubsteps_eq_of 1 (by push_cast; linarith) (by push_cast; linarith)
  have hmin : min (e * 1000.0) MAX_STEP_MS = e * 1000.0 := by
    apply min_eq_left
    rw [show MAX_STEP_MS = 1 / 2 by norm_num [MAX_STEP_MS]]
    exact h2
  unfold process_tick
  rw [if_pos ⟨rfl, (show (0 : ℚ) < (F64.finite e).toRat from h1)⟩]
  simp only [F64.toRat]
  rw [integrate_loop, hn]
  simp only [integrate_loop_fuel, if_pos hr, hmin]

theorem tick_spike_free_single (s : Izhikevich2003Neuron) (e : ℚ)
    (h1 : 0 < e) (h2 : e * 1000.0 ≤ 1 / 2)
    (h3 : s.v + (e * 1000.0) * s.dv < 30.0) : tick_spike_free s e = true := by
  have hr : 0 < e * 1000.0 := by nlinarith
  have hn : nSubsteps (e * 1000.0) = 1 := nSubsteps_eq_of 1 (by push_cast; linarith) (by push_cast; linarith)
  have hmin : min (e * 1000.0) MAX_STEP_MS = e * 1000.0 := by
    apply min_eq_left
    rw [show MAX_STEP_MS = 1 / 2 by norm_num [MAX_STEP_MS]]
    exact h2
  unfold tick_spike_free
  rw [hn]
  simp only [spike_free_fuel, if_pos hr, hmin]
  simp [h3]

/-! ## Claim theorems -/

/-- C1: for every finite `elapsed_seconds > 0`, `process_tick` converts the
elapsed time to milliseconds (`remaining = elapsed_seconds * 1000`) and
repeatedly performs forward-Euler sub-steps of size `dt = min(remaining, 0.5)`
(decrementing the budget by `dt`), where each sub-step computes
`dv = 0.04*v^2 + 5*v + 140 - u + i_syn` and `du = a*(b*v - u)` from the
pre-step `v` and `u` and commits `v + dt*dv` and `u + dt*du` simultaneously
(below the spike threshold; the threshold branch is claim C2). -/
theorem process_tick_euler_scheme (s : Izhikevich2003Neuron) (t : ℕ) (e : F64)
    (hf : e.is_finite = true) (hp : 0 < e.toRat) :
    (process_tick s t e =
      { integrate_loop s (e.toRat * 1000.0) with
        v_mv := (integrate_loop s (e.toRat * 1000.0)).v })
    ∧ (∀ (s' : Izhikevich2003Neuron) (r : ℚ), 0 < r →
        integrate_loop s' r =
          integrate_loop (substep s' (min r (0.5 : ℚ))) (r - min r (0.5 : ℚ)))
    ∧ (∀ (s' : Izhikevich2003Neuron) (dt : ℚ),
        s'.v + dt * (0.04 * s'.v * s'.v + 5.0 * s'.v + 140.0 - s'.u + s'.i_syn.toRat)
            < 30.0 →
        substep s' dt =
          { s' with
            v := s'.v +
              dt * (0.04 * s'.v * s'.v + 5.0 * s'.v + 140.0 - s'.u + s'.i_syn.toRat),
            u := s'.u + dt * (s'.a * (s'.b * s'.v - s'.u)) }) := by
  refine ⟨?_, ?_, ?_⟩
  · unfold process_tick
    rw [if_pos ⟨hf, hp⟩]
  · intro s' r hr
    have h := integrate_loop_eq s' r
    rw [if_pos hr] at h
    simpa [MAX_STEP_MS] using h
  · intro s' dt h
    simp only [substep, Izhikevich2003Neuron.dv, Izhikevich2003Neuron.du]
    rw [if_neg (not_le.mpr h)]

theorem process_tick_euler_scheme_witness :
    (F64.finite (1 / 2000)).is_finite = true ∧ 0 < (F64.finite (1 / 2000)).toRat ∧
    process_tick Izhikevich2003Neuron.default 0 (.finite (1 / 2000)) =
      { integrate_loop Izhikevich2003Neuron.default
          ((F64.finite (1 / 2000)).toRat * 1000.0) with
        v_mv := (integrate_loop Izhikevich2003Neuron.default
          ((F64.finite (1 / 2000)).toRat * 1000.0)).v } :=
  ⟨rfl, by norm_num [F64.toRat],
    (process_tick_euler_scheme Izhikevich2003Neuron.default 0 (.finite (1 / 2000)) rfl
      (by norm_num [F64.toRat])).1⟩

/-- C2: in every sub-step, if the raw Euler candidate `v + dt*dv` reaches or
exceeds the fixed threshold 30.0, the committed `v` is the configured `c`
(the candidate is discarded) and the committed `u` is the pre-step `u` plus
`dt` times `du` plus the increment `d`; otherwise the committed values are
exactly the Euler candidates. -/
theorem substep_threshold_reset (s : Izhikevich2003Neuron) (dt : ℚ) :
    (30.0 ≤ s.v + dt * (0.04 * s.v * s.v + 5.0 * s.v + 140.0 - s.u + s.i_syn.toRat) →
      substep s dt = { s with v := s.c, u := s.u + dt * (s.a * (s.b * s.v - s.u)) + s.d })
    ∧ (s.v + dt * (0.04 * s.v * s.v + 5.0 * s.v + 140.0 - s.u + s.i_syn.toRat) < 30.0 →
      substep s dt =
        { s with
          v := s.v + dt * (0.04 * s.v * s.v + 5.0 * s.v + 140.0 - s.u + s.i_syn.toRat),
          u := s.u + dt * (s.a * (s.b * s.v - s.u)) }) := by
  constructor
  · intro h
    simp only [substep, Izhikevich2003Neuron.dv, Izhikevich2003Neuron.du]
    rw [if_pos h]
  · intro h
    simp only [substep, Izhikevich2003Neuron.dv, Izhikevich2003Neuron.du]
    rw [if_neg (not_le.mpr h)]

theorem substep_threshold_reset_witness :
    (30.0 ≤ (29 : ℚ) +
        (1 / 2) * (0.04 * 29 * 29 + 5.0 * 29 + 140.0 - 0 + (F64.finite 0.0).toRat)) ∧
    substep ⟨.finite 0.0, 29, 0, 0, 0, -65, 8, 0⟩ (1 / 2) =
      ⟨.finite 0.0, -65, 8, 0, 0, -65, 8, 0⟩ ∧
    ((Izhikevich2003Neuron.default.v +
        (1 / 2) * (0.04 * Izhikevich2003Neuron.default.v * Izhikevich2003Neuron.default.v +
          5.0 * Izhikevich2003Neuron.default.v + 140.0 - Izhikevich2003Neuron.default.u +
          Izhikevich2003Neuron.default.i_syn.toRat)) < 30.0) ∧
    substep Izhikevich2003Neuron.default (1 / 2) =
      ⟨.finite 0.0, -66.5, -13, 0.02, 0.2, -65, 8, -65⟩ := by
  refine ⟨by norm_num [F64.toRat], ?_, by norm_num [Izhikevich2003Neuron.default, F64.toRat], ?_⟩
  · have h := (substep_threshold_reset ⟨.finite 0.0, 29, 0, 0, 0, -65, 8, 0⟩ (1 / 2)).1
      (by norm_num [F64.toRat])
    rw [h]
    norm_num [Izhikevich2003Neuron.mk.injEq]
  · have h := (substep_threshold_reset Izhikevich2003Neuron.default (1 / 2)).2
      (by norm_num [Izhikevich2003Neuron.default, F64.toRat])
    rw [h]
    norm_num [Izhikevich2003Neuron.default, Izhikevich2003Neuron.mk.injEq, F64.toRat]

/-- C4: for every state and every `elapsed_seconds` that is non-finite or
non-positive, `process_tick` is a no-op: the entire state (every field) is
unchanged and no error is raised (the operation is total). -/
theorem process_tick_noop (s : Izhikevich2003Neuron) (t : ℕ) (e : F64)
    (h : e.is_finite = false ∨ e.toRat ≤ 0) : process_tick s t e = s := by
  unfold process_tick
  rw [if_neg]
  rintro ⟨h1, h2⟩
  rcases h with h | h
  · rw [h1] at h
    exact absurd h (by simp)
  · exact absurd h2 (not_lt.mpr h)

theorem process_tick_noop_witness :
    ((F64.nan.is_finite = false ∨ F64.nan.toRat ≤ 0) ∧
      process_tick Izhikevich2003Neuron.default 0 .nan = Izhikevich2003Neuron.default) ∧
    ((F64.posInf.is_finite = false ∨ F64.posInf.toRat ≤ 0) ∧
      process_tick Izhikevich2003Neuron.default 1 .posInf = Izhikevich2003Neuron.default) ∧
    (((F64.finite 0.0).is_finite = false ∨ (F64.finite 0.0).toRat ≤ 0) ∧
      process_tick Izhikevich2003Neuron.default 2 (.finite 0.0) =
        Izhikevich2003Neuron.default) ∧
    (((F64.finite (-1.0)).is_finite = false ∨ (F64.finite (-1.0)).toRat ≤ 0) ∧
      process_tick Izhikevich2003Neuron.default 3 (.finite (-1.0)) =
        Izhikevich2003Neuron.default) :=
  ⟨⟨Or.inl rfl, process_tick_noop _ 0 _ (Or.inl rfl)⟩,
    ⟨Or.inl rfl, process_tick_noop _ 1 _ (Or.inl rfl)⟩,
    ⟨Or.inr (by norm_num [F64.toRat]),
      process_tick_noop _ 2 _ (Or.inr (by norm_num [F64.toRat]))⟩,
    ⟨Or.inr (by norm_num [F64.toRat]),
      process_tick_noop _ 3 _ (Or.inr (by norm_num [F64.toRat]))⟩⟩

/-- C10: `process_tick` mutates only `v`, `u` and `v_mv`: the parameters
`a`, `b`, `c`, `d` and the input `i_syn` are unchanged by the call, on the
reset branch as well as off it. -/
theorem process_tick_frame (s : Izhikevich2003Neuron) (t : ℕ) (e : F64) :
    (process_tick s t e).a = s.a ∧ (process_tick s t e).b = s.b ∧
    (process_tick s t e).c = s.c ∧ (process_tick s t e).d = s.d ∧
    (process_tick s t e).i_syn = s.i_syn := by
  unfold process_tick
  split
  · obtain ⟨h1, h2, h3, h4, h5, h6⟩ :=
      integrate_loop_fuel_frame (nSubsteps (e.toRat * 1000.0)) s (e.toRat * 1000.0)
    exact ⟨by simpa using h2, by simpa using h3, by simpa using h4, by simpa using h5,
      by simpa using h1⟩
  · exact ⟨rfl, rfl, rfl, rfl, rfl⟩

/-- C3, counterexample to the stated bound: a tick of 1/10000 s (0.1 ms)
performs one sub-step, but the claimed bound `elapsed_seconds * 2000` is
0.2, so "at most elapsed_seconds * 2000 sub-step iterations" fails. -/
theorem tick_substeps_bound_cex :
    ¬ ((tick_substeps (1 / 10000) : ℚ) ≤ (1 / 10000) * 2000) := by
  have h : tick_substeps (1 / 10000) = 1 := by
    rw [tick_substeps_closed]
    exact nSubsteps_eq_of 1 (by norm_num) (by norm_num)
  rw [h]
  norm_num

/-- C3 (amended): for every elapsed time > 0 the sub-step loop terminates
and performs exactly `⌈elapsed_seconds * 2000⌉` iterations — hence at most
`elapsed_seconds * 2000` whenever that is an integer — and in particular a
1-second tick performs exactly 2000 sub-steps. -/
theorem tick_substeps_count (e : ℚ) (_h : 0 < e) :
    tick_substeps e = (⌈e * 2000.0⌉).toNat ∧ tick_substeps 1 = 2000 := by
  constructor
  · rw [tick_substeps_closed]
    unfold nSubsteps
    rw [show (2 : ℚ) * (e * 1000.0) = e * 2000.0 by ring]
  · rw [tick_substeps_closed]
    exact nSubsteps_eq_of 2000 (by norm_num) (by norm_num)

theorem tick_substeps_count_witness :
    (0 : ℚ) < 1 ∧ tick_substeps 1 = (⌈(1 : ℚ) * 2000.0⌉).toNat ∧ tick_substeps 1 = 2000 :=
  ⟨by norm_num, tick_substeps_count 1 (by norm_num)⟩

/-- C5, counterexample: the claim ranges over arbitrary configured
parameters, "including any value of c". From the default state, configure
`v=0, u=0, a=0, b=0, c=100, d=0` (all finite, hence accepted) and tick for
1/2000 s: the single sub-step's Euler candidate is 70 ≥ 30, so the reset
commits `v = c = 100`, and `process_tick` returns with `v = 100 ≥ 30`. -/
theorem process_tick_v_ge_threshold_cex :
    30.0 ≤ (process_tick
      (apply_ops Izhikevich2003Neuron.default
        [.config "v" (.number 0.0), .config "u" (.number 0.0), .config "a" (.number 0.0),
         .config "b" (.number 0.0), .config "c" (.number 100.0), .config "d" (.number 0.0)])
      0 (.finite (1 / 2000))).v := by
  have h1 : apply_ops Izhikevich2003Neuron.default
      [.config "v" (.number 0.0), .config "u" (.number 0.0), .config "a" (.number 0.0),
       .config "b" (.number 0.0), .config "c" (.number 100.0), .config "d" (.number 0.0)] =
      ⟨.finite 0.0, 0.0, 0.0, 0.0, 0.0, 100.0, 0.0, -65.0⟩ := rfl
  rw [h1, process_tick_single_step _ _ _ (by norm_num) (by norm_num)]
  norm_num [substep, Izhikevich2003Neuron.dv, Izhikevich2003Neuron.du, F64.toRat]

/-- C5 (amended): provided the configured reset value satisfies `c < 30`,
the committed `v` is below 30.0 after every sub-step (so also between the
sub-steps of a tick), and `v < 30.0` after `process_tick` returns, for every
valid (finite, positive) elapsed time. The hypothesis on `c` is necessary:
see the counterexample with `c = 100`. -/
theorem process_tick_v_subthreshold (s : Izhikevich2003Neuron) (t : ℕ) (e : F64)
    (hc : s.c < 30.0) (hf : e.is_finite = true) (hp : 0 < e.toRat) :
    (process_tick s t e).v < 30.0 ∧
    (∀ (s' : Izhikevich2003Neuron) (dt : ℚ), s'.c < 30.0 → (substep s' dt).v < 30.0) := by
  constructor
  · unfold process_tick
    rw [if_pos ⟨hf, hp⟩]
    simp only [set_vmv_v]
    exact integrate_loop_fuel_v_lt _ s _ (by nlinarith) le_rfl hc
  · intro s' dt h
    exact substep_v_lt dt h

theorem process_tick_v_subthreshold_witness :
    Izhikevich2003Neuron.default.c < 30.0 ∧
    (F64.finite (1 / 2000)).is_finite = true ∧ 0 < (F64.finite (1 / 2000)).toRat ∧
    (process_tick Izhikevich2003Neuron.default 0 (.finite (1 / 2000))).v < 30.0 :=
  ⟨by norm_num [Izhikevich2003Neuron.default], rfl, by norm_num [F64.toRat],
    (process_tick_v_subthreshold Izhikevich2003Neuron.default 0 (.finite (1 / 2000))
      (by norm_num [Izhikevich2003Neuron.default]) rfl (by norm_num [F64.toRat])).1⟩

/-- C6, counterexample: from the default state, integrating 1/2000 s in one
call differs from integrating it as 1/4000 s + 1/4000 s, although no
sub-step in either path reaches the spike threshold. Forward Euler is not
additive in the step size (the vector field is quadratic), so a 0.5 ms
sub-step is not two 0.25 ms sub-steps: the split path ends with
v = -66.456875, the single call with v = -66.5. -/
theorem process_tick_split_cex :
    (0 : ℚ) < 1 / 4000 ∧ (1 / 4000 : ℚ) + 1 / 4000 = 1 / 2000 ∧
    tick_spike_free Izhikevich2003Neuron.default (1 / 4000) = true ∧
    tick_spike_free (process_tick Izhikevich2003Neuron.default 0 (.finite (1 / 4000)))
      (1 / 4000) = true ∧
    tick_spike_free Izhikevich2003Neuron.default (1 / 2000) = true ∧
    (process_tick (process_tick Izhikevich2003Neuron.default 0 (.finite (1 / 4000))) 1
        (.finite (1 / 4000))).v ≠
      (process_tick Izhikevich2003Neuron.default 0 (.finite (1 / 2000))).v := by
  have hA1 : process_tick Izhikevich2003Neuron.default 0 (.finite (1 / 4000)) =
      ⟨.finite 0.0, -65.75, -13.0, 0.02, 0.2, -65.0, 8.0, -65.75⟩ := by
    rw [process_tick_single_step _ _ _ (by norm_num) (by norm_num)]
    norm_num [substep, Izhikevich2003Neuron.dv, Izhikevich2003Neuron.du, F64.toRat,
      Izhikevich2003Neuron.default, Izhikevich2003Neuron.mk.injEq]
  have hA2 : process_tick
      (⟨.finite 0.0, -65.75, -13.0, 0.02, 0.2, -65.0, 8.0, -65.75⟩ : Izhikevich2003Neuron) 1
      (.finite (1 / 4000)) =
      ⟨.finite 0.0, -66.456875, -13.00075, 0.02, 0.2, -65.0, 8.0, -66.456875⟩ := by
    rw [process_tick_single_step _ _ _ (by norm_num) (by norm_num)]
    norm_num [substep, Izhikevich2003Neuron.dv, Izhikevich2003Neuron.du, F64.toRat,
      Izhikevich2003Neuron.mk.injEq]
  have hB : process_tick Izhikevich2003Neuron.default 0 (.finite (1 / 2000)) =
      ⟨.finite 0.0, -66.5, -13.0, 0.02, 0.2, -65.0, 8.0, -66.5⟩ := by
    rw [process_tick_single_step _ _ _ (by norm_num) (by norm_num)]
    norm_num [substep, Izhikevich2003Neuron.dv, Izhikevich2003Neuron.du, F64.toRat,
      Izhikevich2003Neuron.default, Izhikevich2003Neuron.mk.injEq]
  refine ⟨by norm_num, by norm_num, ?_, ?_, ?_, ?_⟩
  · exact tick_spike_free_single _ _ (by norm_num) (by norm_num)
      (by norm_num [Izhikevich2003Neuron.dv, Izhikevich2003Neuron.default, F64.toRat])
  · rw [hA1]
    exact tick_spike_free_single _ _ (by norm_num) (by norm_num)
      (by norm_num [Izhikevich2003Neuron.dv, F64.toRat])
  · exact tick_spike_free_single _ _ (by norm_num) (by norm_num)
      (by norm_num [Izhikevich2003Neuron.dv, Izhikevich2003Neuron.default, F64.toRat])
  · rw [hA1, hA2, hB]
    norm_num

/-- C6 (amended): integrating an interval in one call agrees with
integrating it in two calls when the first call's duration is an integer
number of full 0.5 ms sub-steps (`e1 * 2000 = k`), so that the sub-step
boundaries of the two paths align; the final `v` and `u` then agree (with
or without threshold crossings). For unaligned splits the equality fails,
see the counterexample. -/
theorem process_tick_split_aligned (s : Izhikevich2003Neuron) (t1 t2 t3 : ℕ)
    (e1 e2 : ℚ) (k : ℕ) (hk : e1 * 2000.0 = (k : ℚ)) (h1 : 0 < e1) (h2 : 0 < e2) :
    (process_tick (process_tick s t1 (.finite e1)) t2 (.finite e2)).v =
      (process_tick s t3 (.finite (e1 + e2))).v ∧
    (process_tick (process_tick s t1 (.finite e1)) t2 (.finite e2)).u =
      (process_tick s t3 (.finite (e1 + e2))).u := by
  have hr2 : 0 < e2 * 1000.0 := by nlinarith
  have he1 : e1 * 1000.0 = (k : ℚ) / 2 := by
    have h2000 : (2000.0 : ℚ) = 2000 := by norm_num
    have h1000 : (1000.0 : ℚ) = 1000 := by norm_num
    rw [h1000]
    rw [h2000] at hk
    linarith
  have key : integrate_loop s ((e1 + e2) * 1000.0) =
      integrate_loop (integrate_loop s (e1 * 1000.0)) (e2 * 1000.0) := by
    rw [show (e1 + e2) * 1000.0 = e1 * 1000.0 + e2 * 1000.0 by ring, he1]
    exact integrate_loop_append k s _ hr2
  have hP1 : process_tick s t1 (.finite e1) =
      { integrate_loop s (e1 * 1000.0) with v_mv := (integrate_loop s (e1 * 1000.0)).v } := by
    unfold process_tick
    rw [if_pos ⟨rfl, show (0 : ℚ) < (F64.finite e1).toRat from h1⟩]
    rfl
  have hP2 : ∀ (x : Izhikevich2003Neuron) (t : ℕ), process_tick x t (.finite e2) =
      { integrate_loop x (e2 * 1000.0) with v_mv := (integrate_loop x (e2 * 1000.0)).v } := by
    intro x t
    unfold process_tick
    rw [if_pos ⟨rfl, show (0 : ℚ) < (F64.finite e2).toRat from h2⟩]
    rfl
  have hP3 : process_tick s t3 (.finite (e1 + e2)) =
      { integrate_loop s ((e1 + e2) * 1000.0) with
        v_mv := (integrate_loop s ((e1 + e2) * 1000.0)).v } := by
    unfold process_tick
    rw [if_pos ⟨rfl, show (0 : ℚ) < (F64.finite (e1 + e2)).toRat by
      show (0 : ℚ) < e1 + e2
      linarith⟩]
    rfl
  rw [hP1, hP2 _ t2, hP3, key]
  constructor
  · simp only [integrate_loop_set_vmv, set_vmv_v]
  · simp only [integrate_loop_set_vmv, set_vmv_u]

theorem process_tick_split_aligned_witness :
    ((1 / 2000 : ℚ) * 2000.0 = ((1 : ℕ) : ℚ)) ∧ (0 : ℚ) < 1 / 2000 ∧ (0 : ℚ) < 1 / 4000 ∧
    ((process_tick (process_tick Izhikevich2003Neuron.default 0 (.finite (1 / 2000))) 1
        (.finite (1 / 4000))).v =
      (process_tick Izhikevich2003Neuron.default 2 (.finite (1 / 2000 + 1 / 4000))).v ∧
    (process_tick (process_tick Izhikevich2003Neuron.default 0 (.finite (1 / 2000))) 1
        (.finite (1 / 4000))).u =
      (process_tick Izhikevich2003Neuron.default 2 (.finite (1 / 2000 + 1 / 4000))).u) :=
  ⟨by norm_num, by norm_num, by norm_num,
    process_tick_split_aligned Izhikevich2003Neuron.default 0 1 2 (1 / 2000) (1 / 4000) 1
      (by norm_num) (by norm_num) (by norm_num)⟩

/-- C7: `set_input_value` on key `"i_syn"` stores the supplied value when it
is finite and stores 0.0 when it is non-finite; consequently, starting from
the default state, `i_syn` is finite after every sequence of host operations
(configuration calls, input calls, ticks) — the state never holds a
non-finite input. -/
theorem set_input_finite_invariant (s : Izhikevich2003Neuron) (x : F64) :
    (x.is_finite = true → set_input_value s "i_syn" x = { s with i_syn := x }) ∧
    (x.is_finite = false → set_input_value s "i_syn" x = { s with i_syn := .finite 0.0 }) ∧
    (∀ ops : List HostOp,
      (apply_ops Izhikevich2003Neuron.default ops).i_syn.is_finite = true) := by
  refine ⟨?_, ?_, ?_⟩
  · intro h
    simp [set_input_value, h]
  · intro h
    simp [set_input_value, h]
  · intro ops
    exact apply_ops_i_syn_finite ops _ rfl

theorem set_input_finite_invariant_witness :
    ((F64.finite 5.0).is_finite = true ∧
      set_input_value Izhikevich2003Neuron.default "i_syn" (.finite 5.0) =
        { Izhikevich2003Neuron.default with i_syn := .finite 5.0 }) ∧
    (F64.nan.is_finite = false ∧
      set_input_value Izhikevich2003Neuron.default "i_syn" .nan =
        { Izhikevich2003Neuron.default with i_syn := .finite 0.0 }) ∧
    (apply_ops Izhikevich2003Neuron.default
      [.input "i_syn" .posInf, .tick 0 (.finite 1.0)]).i_syn.is_finite = true :=
  ⟨⟨rfl, (set_input_finite_invariant Izhikevich2003Neuron.default (.finite 5.0)).1 rfl⟩,
    ⟨rfl, (set_input_finite_invariant Izhikevich2003Neuron.default .nan).2.1 rfl⟩,
    (set_input_finite_invariant Izhikevich2003Neuron.default .nan).2.2
      [.input "i_syn" .posInf, .tick 0 (.finite 1.0)]⟩

/-- C8: `set_config_value` with a key in `{v, u, a, b, c, d}` and a finite
numeric value overwrites exactly the named field; unknown keys are silently
ignored, and non-finite values cannot reach the state: at the configuration
boundary a non-finite f64 becomes a non-numeric JSON value, which
`as_f64` rejects, leaving the state unchanged. No case raises an error. -/
theorem set_config_overwrites (s : Izhikevich2003Neuron) (k : String) (q : ℚ) (x : F64) :
    set_config_value s "v" (.number q) = { s with v := q } ∧
    set_config_value s "u" (.number q) = { s with u := q } ∧
    set_config_value s "a" (.number q) = { s with a := q } ∧
    set_config_value s "b" (.number q) = { s with b := q } ∧
    set_config_value s "c" (.number q) = { s with c := q } ∧
    set_config_value s "d" (.number q) = { s with d := q } ∧
    (k ∉ (["v", "u", "a", "b", "c", "d"] : List String) →
      set_config_value s k (.number q) = s) ∧
    (x.is_finite = false → set_config_value s k (.from_f64 x) = s) := by
  refine ⟨?_, ?_, ?_, ?_, ?_, ?_, ?_, ?_⟩
  · simp [set_config_value, JsonValue.as_f64]
  · simp [set_config_value, JsonValue.as_f64]
  · simp [set_config_value, JsonValue.as_f64]
  · simp [set_config_value, JsonValue.as_f64]
  · simp [set_config_value, JsonValue.as_f64]
  · simp [set_config_value, JsonValue.as_f64]
  · intro h
    simp only [List.mem_cons, List.mem_singleton, not_or] at h
    obtain ⟨h1, h2, h3, h4, h5, h6, -⟩ := h
    simp [set_config_value, JsonValue.as_f64, h1, h2, h3, h4, h5, h6]
  · intro h
    cases x with
    | finite q' => simp [F64.is_finite] at h
    | nan => rfl
    | posInf => rfl
    | negInf => rfl

theorem set_config_overwrites_witness :
    ("gain" ∉ (["v", "u", "a", "b", "c", "d"] : List String)) ∧
    set_config_value Izhikevich2003Neuron.default "gain" (.number 3.5) =
      Izhikevich2003Neuron.default ∧
    F64.posInf.is_finite = false ∧
    set_config_value Izhikevich2003Neuron.default "gain" (.from_f64 .posInf) =
      Izhikevich2003Neuron.default ∧
    set_config_value Izhikevich2003Neuron.default "a" (.number 3.5) =
      { Izhikevich2003Neuron.default with a := 3.5 } :=
  ⟨by decide, (set_config_overwrites Izhikevich2003Neuron.default "gain" 3.5 .posInf).2.2.2.2.2.2.1
      (by decide),
    rfl, (set_config_overwrites Izhikevich2003Neuron.default "gain" 3.5 .posInf).2.2.2.2.2.2.2 rfl,
    (set_config_overwrites Izhikevich2003Neuron.default "gain" 3.5 .posInf).2.2.1⟩

/-- C9: the integration is deterministic — the trajectory of
`(v, u, v_mv)` triples produced by a run is a function of the initial state
and the `(i_syn, elapsed_seconds)` input sequence only. Two runs from equal
initial states on equal input sequences produce equal trajectories, even
when started at different tick counters (the tick number is never read). -/
theorem trajectory_deterministic (s₁ s₂ : Izhikevich2003Neuron) (t₁ t₂ : ℕ)
    (ins₁ ins₂ : List (F64 × F64)) (hs : s₁ = s₂) (hins : ins₁ = ins₂) :
    trajectory s₁ t₁ ins₁ = trajectory s₂ t₂ ins₂ := by
  subst hs
  subst hins
  induction ins₁ generalizing s₁ t₁ t₂ with
  | nil => rfl
  | cons p rest ih =>
    obtain ⟨i, e⟩ := p
    simp only [trajectory]
    exact congrArg _ (ih _ (t₁ + 1) (t₂ + 1))

theorem trajectory_deterministic_witness :
    trajectory Izhikevich2003Neuron.default 0 [(.finite 10.0, .finite (1 / 2000))] =
      trajectory Izhikevich2003Neuron.default 7 [(.finite 10.0, .finite (1 / 2000))] :=
  trajectory_deterministic Izhikevich2003Neuron.default Izhikevich2003Neuron.default 0 7
    [(.finite 10.0, .finite (1 / 2000))] [(.finite 10.0, .finite (1 / 2000))] rfl rfl
